import Mathlib

/-!
# go-exec-callback: line-prefix writer, exit-code translation and the supervisor

A shallow embedding of `main.go`.  Byte slices are lists of bytes, an `io.Writer`
is a transition function on an explicit sink state, Go's `error` results are
`Option` values (`none` is `nil`).
-/

namespace ExecCallback

/-- A byte of a Go `[]byte`. -/
abbrev Byte := UInt8

/-- The line-feed byte, `'\n'` in the source. -/
def newline : Byte := 10

/-- An `io.Writer` with state `σ` and error values `ε`: `write s p` is the call
`Write(p)` in sink state `s`; it returns `(n, err)` and the next sink state. -/
structure Writer (σ ε : Type) where
  write : σ → List Byte → (Nat × Option ε) × σ

/-- One observed call of a sink's `Write`: the slice passed in and what came back. -/
structure Call (ε : Type) where
  data : List Byte
  n : Nat
  err : Option ε

/-- The sink `dst` with every call recorded, in order, next to its own state. -/
def logged {σ ε : Type} (dst : Writer σ ε) : Writer (σ × List (Call ε)) ε where
  write := fun st p =>
    let r := dst.write st.1 p
    (r.1, (r.2, st.2 ++ [⟨p, r.1.1, r.1.2⟩]))

/-- All bytes handed to the sink by the recorded calls, in order. -/
def sent {ε : Type} (log : List (Call ε)) : List Byte :=
  (log.map Call.data).flatten

/-- The bytes the sink holds when a failing write delivers nothing and a
successful write delivers its whole slice: the data of the calls without error. -/
def accepted {ε : Type} (log : List (Call ε)) : List Byte :=
  ((log.filter (fun c => c.err.isNone)).map Call.data).flatten

/-- A sink none of whose writes ever returns an error. -/
def NeverFails {σ ε : Type} (dst : Writer σ ε) : Prop :=
  ∀ s p, (dst.write s p).1.2 = none

/-- An in-memory buffer (`bytes.Buffer`): every write appends and succeeds. -/
def bufSink (ε : Type) : Writer (List Byte) ε where
  write := fun buf p => ((p.length, none), buf ++ p)

/-- The struct `LinePrefixWriter` without its `dst` field, which is the `Writer`
and sink state passed to `Write`; `pfx` is the field `prefix` of the source. -/
structure LinePrefixWriter where
  pfx : List Byte
  atLineStart : Bool
deriving DecidableEq

/-- The constructor `NewLinePrefixWriter(dst, prefix)`: the bytes of the prefix (a Go
string is its byte sequence), `atLineStart` true. -/
def NewLinePrefixWriter (pfx : List Byte) : LinePrefixWriter :=
  { pfx := pfx, atLineStart := true }

/-- The `for i := 0; i < len(p); i++` loop of `Write`: the first argument is
`p[i:]`, then `consumed`, `w.atLineStart` and the sink state.  Returns
`(consumed, err)`, the flag and the sink state at the `return`. -/
def writeLoop {σ ε : Type} (dst : Writer σ ε) (pfx : List Byte) :
    List Byte → Nat → Bool → σ → (Nat × Option ε) × Bool × σ
  | [], consumed, atLineStart, s => ((consumed, none), atLineStart, s)
  | b :: rest, consumed, atLineStart, s =>
    if atLineStart then
      match dst.write s pfx with
      | ((_, some err), s1) => ((consumed, some err), atLineStart, s1)
      | ((_, none), s1) =>
        match dst.write s1 [b] with
        | ((_, some err), s2) => ((consumed, some err), false, s2)
        | ((_, none), s2) =>
          writeLoop dst pfx rest (consumed + 1) (if b = newline then true else false) s2
    else
      match dst.write s [b] with
      | ((_, some err), s2) => ((consumed, some err), atLineStart, s2)
      | ((_, none), s2) =>
        writeLoop dst pfx rest (consumed + 1) (if b = newline then true else atLineStart) s2

/-- The method `(*LinePrefixWriter).Write`: passthrough for an empty prefix,
otherwise the byte loop starting with `consumed = 0`. -/
def LinePrefixWriter.Write {σ ε : Type} (dst : Writer σ ε) (w : LinePrefixWriter) (s : σ)
    (p : List Byte) : (Nat × Option ε) × LinePrefixWriter × σ :=
  if w.pfx.length = 0 then
    let r := dst.write s p
    (r.1, w, r.2)
  else
    let r := writeLoop dst w.pfx p 0 w.atLineStart s
    (r.1, { w with atLineStart := r.2.1 }, r.2.2)

/-- Calling `Write` once per chunk, in order, on the same writer and sink. -/
def writeChunks {σ ε : Type} (dst : Writer σ ε) :
    LinePrefixWriter → σ → List (List Byte) → LinePrefixWriter × σ
  | w, s, [] => (w, s)
  | w, s, c :: cs =>
    let r := LinePrefixWriter.Write dst w s c
    writeChunks dst r.2.1 r.2.2 cs

/-- The byte loop's output as a function of the input alone: the prefix before a
byte exactly when the line-start flag is set, the flag being set by a line feed. -/
def expand (P : List Byte) : Bool → List Byte → List Byte
  | _, [] => []
  | atLineStart, b :: rest =>
    (if atLineStart then P else []) ++ b :: expand P (if b = newline then true else false) rest

/-- The line-start flag after the bytes of a chunk have gone through. -/
def flagAfter : Bool → List Byte → Bool
  | atLineStart, [] => atLineStart
  | _, b :: rest => flagAfter (if b = newline then true else false) rest

/-- The reference output in the words of the specification: one copy of `P` before
a byte that has no predecessor (`prev = none`, the start of the stream) or whose
immediately preceding byte is a line feed, every input byte kept in place. -/
def prefixEachLine (P : List Byte) : Option Byte → List Byte → List Byte
  | _, [] => []
  | prev, b :: rest =>
    (if prev = none ∨ prev = some newline then P else []) ++ b :: prefixEachLine P (some b) rest

/-- What one run of the byte loop over chunk `p`, entered with `consumed = c`, flag
`f` and call log `log0`, can leave behind, `r` being the loop's result over a logged
sink.  `p` splits as `done ++ rest` with `done` the bytes written; `ok` are the new
calls that succeeded.  Either the whole chunk went through, or one call `bad` failed
and is the last call made: the write of the prefix (flag still set), or the write of
the byte `b` heading `rest` (flag cleared, the prefix of that line already out). -/
def LoopOutcome {σ ε : Type} (pfx p : List Byte) (c : Nat) (f : Bool) (log0 : List (Call ε))
    (r : (Nat × Option ε) × Bool × (σ × List (Call ε))) : Prop :=
  ∃ done rest ok, p = done ++ rest ∧ r.1.1 = c + done.length ∧ (∀ x ∈ ok, x.err = none) ∧
    ((rest = [] ∧ r.1.2 = none ∧ r.2.2.2 = log0 ++ ok ∧ sent ok = expand pfx f p ∧
        r.2.1 = flagAfter f p) ∨
     (∃ e bad, r.1.2 = some e ∧ bad.err = some e ∧ r.2.2.2 = log0 ++ ok ++ [bad] ∧
        ((rest ≠ [] ∧ bad.data = pfx ∧ flagAfter f done = true ∧ r.2.1 = true ∧
            sent ok = expand pfx f done) ∨
         (∃ b tl, rest = b :: tl ∧ bad.data = [b] ∧ r.2.1 = false ∧
            sent ok = expand pfx f done ++ (if flagAfter f done then pfx else [])))))

/-- A sink that counts its calls and fails exactly the call numbered `k` (from 0),
delivering nothing on that call; every other call succeeds in full. -/
def failOnCall (k : Nat) : Writer Nat String where
  write := fun i p =>
    if i = k then ((0, some "write failed"), i + 1) else ((p.length, none), i + 1)

/-! ## Exit codes -/

/-- A Go `string`: an immutable sequence of bytes. -/
abbrev GoString := List Byte

/-- The bytes of an ASCII string literal of the source. -/
def lit (s : String) : GoString :=
  s.toList.map (fun c => UInt8.ofNat c.toNat)

/-- How a waited-for child ended, as its `os.ProcessState` reports it: a normal
exit with a status, or termination by a signal. -/
inductive ProcessState where
  | exited (status : Nat)
  | signaled (sig : Nat)
deriving DecidableEq

/-- The method `ProcessState.ExitCode()` of Go's `os` package, as documented: the
exit code of an exited process (its 8-bit status), -1 for one ended by a signal. -/
def ProcessState.ExitCode : ProcessState → Int
  | .exited status => ((status % 256 : Nat) : Int)
  | .signaled _ => -1

/-- A non-nil Go `error` as far as `exitCodeFromError` can tell values apart: an
`*exec.ExitError` with its process state, some other error, or an error wrapping
another one (reachable through `Unwrap`). -/
inductive GoError where
  | exitError (state : ProcessState)
  | other (msg : String)
  | wrap (msg : String) (inner : GoError)
deriving DecidableEq

/-- The call `errors.As(err, &ee)` with `ee` of type `*exec.ExitError`: the first
`ExitError` on the unwrap chain of `err`, if there is one. -/
def asExitError : GoError → Option ProcessState
  | .exitError state => some state
  | .other _ => none
  | .wrap _ inner => asExitError inner

/-- The function `exitCodeFromError`. -/
def exitCodeFromError (err : Option GoError) : Int :=
  match err with
  | none => 0
  | some e =>
    match asExitError e with
    | some ee => ee.ExitCode
    | none => 1

/-- What `cmd.Wait()` returns for a child that exits normally with status `N`:
`nil` for status 0, otherwise an `*exec.ExitError` carrying the status. -/
def waitResult (N : Nat) : Option GoError :=
  if N = 0 then none else some (.exitError (.exited N))

/-- The run outcomes that are neither success nor a normal exit of the child with
a non-zero status: a non-nil wait error that is not an `ExitError` of an exited
process with status other than 0. -/
def genericFailure : Option GoError → Bool
  | none => false
  | some e =>
    match asExitError e with
    | some (.exited status) => decide (status % 256 = 0)
    | some (.signaled _) => true
    | none => true

/-! ## The supervisor `main` -/

/-- The value built by `exec.Command(name, arg...)`. -/
structure Cmd where
  name : GoString
  args : List GoString
deriving DecidableEq

/-- The function `shellCommand`; `goos` is `runtime.GOOS`. -/
def shellCommand (goos : String) (command : GoString) : Cmd :=
  if goos = "windows" then
    { name := lit "cmd.exe", args := [lit "/C", command] }
  else
    { name := lit "/bin/sh", args := [lit "-c", command] }

/-- What the operating system answers to the calls `main` makes, in one run. -/
structure Env where
  goos : String
  stdoutPipeErr : Option GoError
  stderrPipeErr : Option GoError
  startErr : Option GoError
  waitErr : Option GoError

/-- The two output streams of the child. -/
inductive Stream where
  | stdout
  | stderr
deriving DecidableEq

/-- The effects of `main`, in program order.  `relay st w` is the `go` statement
starting `io.Copy` for stream `st`, to the plain destination (`w = none`) or to a
`LinePrefixWriter`; `exit code` is `os.Exit(code)`, after which nothing runs. -/
inductive Event where
  | errorLine (text : String)
  | errorf (format : String) (err : GoError)
  | usage
  | buildCommand (cmd : Cmd)
  | stdoutPipe
  | stderrPipe
  | start
  | relay (st : Stream) (w : Option LinePrefixWriter)
  | wait
  | wgWait
  | exit (code : Int)
deriving DecidableEq

/-- The function `main` after `flag.Parse()`: `command` and `appendPrefix` are the
parsed flag values, the result is the sequence of effects up to `os.Exit`. -/
def main (command appendPrefix : GoString) (env : Env) : List Event :=
  if command = [] then
    [.errorLine "Error: --command is required", .errorLine "", .usage, .exit 2]
  else
    let cmd := shellCommand env.goos command
    match env.stdoutPipeErr with
    | some err =>
      [.buildCommand cmd, .stdoutPipe, .errorf "Error: StdoutPipe: %v\n" err, .exit 1]
    | none =>
      match env.stderrPipeErr with
      | some err =>
        [.buildCommand cmd, .stdoutPipe, .stderrPipe,
          .errorf "Error: StderrPipe: %v\n" err, .exit 1]
      | none =>
        match env.startErr with
        | some err =>
          [.buildCommand cmd, .stdoutPipe, .stderrPipe, .start,
            .errorf "Error: start command: %v\n" err, .exit 1]
        | none =>
          let outWriter : Option LinePrefixWriter :=
            if appendPrefix ≠ [] then some (NewLinePrefixWriter appendPrefix) else none
          let errWriter : Option LinePrefixWriter :=
            if appendPrefix ≠ [] then some (NewLinePrefixWriter appendPrefix) else none
          [.buildCommand cmd, .stdoutPipe, .stderrPipe, .start,
            .relay .stdout outWriter, .relay .stderr errWriter,
            .wait, .wgWait, .exit (exitCodeFromError env.waitErr)]

/-! ## The concurrent tail of `main`: child, two relays, `cmd.Wait`, `wg.Wait` -/

/-- One relay goroutine (`io.Copy(writer, pipe)` followed by `wg.Done()`) with the
pipe it reads: `pipe` holds the bytes the child has written that the relay has not
read yet, `dest` the bytes that reached the supervisor's own stream, `writer` is
the `LinePrefixWriter` in front of it (`none` without prefix), `finished` says
that `io.Copy` has returned and `wg.Done()` has run. -/
structure Relay where
  pipe : List Byte
  writer : Option LinePrefixWriter
  dest : List Byte
  finished : Bool
deriving DecidableEq

/-- Where the main goroutine stands from line 144 on: before `cmd.Wait()` returns,
before `wg.Wait()` returns, before `os.Exit`, and after `os.Exit(code)`. -/
inductive MainPc where
  | atWait
  | atWgWait
  | atExit
  | exited (code : Int)
deriving DecidableEq

/-- The state of one run after `cmd.Start()` and the two `go` statements.
`childStatus` is `none` while the child runs; `childOut` and `childErr` are all
the bytes the child has written to its stdout and stderr; `pipesClosed` says that
the supervisor's ends of the pipes are closed. -/
structure Sup where
  childStatus : Option ProcessState
  childOut : List Byte
  childErr : List Byte
  pipesClosed : Bool
  out : Relay
  err : Relay
  waitErr : Option GoError
  pc : MainPc
deriving DecidableEq

/-- The steps the child, the relays and the main goroutine can take. -/
inductive Action where
  | childWrite (st : Stream) (b : Byte)
  | childExit (status : ProcessState)
  | relayCopy (st : Stream)
  | relayEOF (st : Stream)
  | relayErr (st : Stream)
  | wait
  | wgWait
  | exit
deriving DecidableEq

/-- The state when the relays are started: nothing written, nothing read, the
writers as `main` builds them from `appendPrefix` (lines 121-127). -/
def Sup.started (appendPrefix : GoString) : Sup :=
  { childStatus := none, childOut := [], childErr := [], pipesClosed := false,
    out := { pipe := [], dest := [], finished := false,
             writer := if appendPrefix ≠ [] then some (NewLinePrefixWriter appendPrefix)
                       else none },
    err := { pipe := [], dest := [], finished := false,
             writer := if appendPrefix ≠ [] then some (NewLinePrefixWriter appendPrefix)
                       else none },
    waitErr := none, pc := .atWait }

/-- The relay of a stream. -/
def Sup.relay (s : Sup) : Stream → Relay
  | .stdout => s.out
  | .stderr => s.err

/-- The state with the relay of a stream replaced. -/
def Sup.setRelay (s : Sup) (st : Stream) (r : Relay) : Sup :=
  match st with
  | .stdout => { s with out := r }
  | .stderr => { s with err := r }

/-- What `cmd.Wait()` returns for a child that ended in state `ps`: `nil` after a
normal exit with status 0, otherwise an `*exec.ExitError` carrying the state. -/
def waitErrorOf (ps : ProcessState) : Option GoError :=
  match ps with
  | .exited status => if status % 256 = 0 then none else some (.exitError ps)
  | .signaled _ => some (.exitError ps)

/-- One write of `io.Copy` to the relay's destination, a stream that accepts every
write: directly, or through `LinePrefixWriter.Write`. -/
def Relay.forward (r : Relay) (chunk : List Byte) : Relay :=
  match r.writer with
  | none => { r with dest := r.dest ++ chunk }
  | some w =>
    let res := LinePrefixWriter.Write (bufSink Unit) w r.dest chunk
    { r with writer := some res.2.1, dest := res.2.2 }

/-- One step of the run, `none` when the action cannot happen in the state.
* `childWrite`: the running child writes a byte into a pipe.
* `childExit`: the running child ends.
* `relayCopy`: an unfinished relay reads what its open pipe holds and forwards it.
* `relayEOF`: an unfinished relay finds its open pipe empty after the child ended;
  `io.Copy` returns, `wg.Done()` runs.
* `relayErr`: an unfinished relay reads from a pipe the supervisor has closed; the
  read fails, `io.Copy` returns the error, which line 135 or 141 drops, and
  `wg.Done()` runs.  What the pipe still held is never read.
* `wait`: `cmd.Wait()` (line 144) returns once the child has ended; as Go documents
  for `StdoutPipe`, it closes the pipes after seeing the command exit.
* `wgWait`: `wg.Wait()` (line 146) returns once both relays have finished.
* `exit`: lines 148-149, `os.Exit(exitCodeFromError(waitErr))`. -/
def step (s : Sup) : Action → Option Sup
  | .childWrite st b =>
    if s.childStatus = none then
      let r := s.relay st
      let s1 := s.setRelay st { r with pipe := r.pipe ++ [b] }
      match st with
      | .stdout => some { s1 with childOut := s.childOut ++ [b] }
      | .stderr => some { s1 with childErr := s.childErr ++ [b] }
    else none
  | .childExit status =>
    if s.childStatus = none then some { s with childStatus := some status } else none
  | .relayCopy st =>
    let r := s.relay st
    if r.finished = false ∧ s.pipesClosed = false ∧ r.pipe ≠ [] then
      some (s.setRelay st { r.forward r.pipe with pipe := [] })
    else none
  | .relayEOF st =>
    let r := s.relay st
    if r.finished = false ∧ s.pipesClosed = false ∧ r.pipe = [] ∧ s.childStatus ≠ none then
      some (s.setRelay st { r with finished := true })
    else none
  | .relayErr st =>
    let r := s.relay st
    if r.finished = false ∧ s.pipesClosed = true then
      some (s.setRelay st { r with finished := true })
    else none
  | .wait =>
    match s.childStatus with
    | some ps =>
      if s.pc = .atWait then
        some { s with pipesClosed := true, waitErr := waitErrorOf ps, pc := .atWgWait }
      else none
    | none => none
  | .wgWait =>
    if s.pc = .atWgWait ∧ s.out.finished = true ∧ s.err.finished = true then
      some { s with pc := .atExit }
    else none
  | .exit =>
    if s.pc = .atExit then some { s with pc := .exited (exitCodeFromError s.waitErr) }
    else none

/-- A run: the actions of a schedule taken in order, `none` when one of them
cannot happen. -/
def run (s : Sup) : List Action → Option Sup
  | [] => some s
  | a :: rest =>
    match step s a with
    | some s1 => run s1 rest
    | none => none

/-- The order in which `main` may leave its waits: past `cmd.Wait()` only with the
child ended, past `wg.Wait()` only with both relays finished. -/
def OrderInv (s : Sup) : Prop :=
  (s.pc ≠ .atWait → s.childStatus ≠ none) ∧
  ((s.pc ≠ .atWait ∧ s.pc ≠ .atWgWait) → s.out.finished = true ∧ s.err.finished = true)

/-! ## Lemmas on the reference functions -/

theorem expand_append (P : List Byte) (a b : List Byte) (f : Bool) :
    expand P f (a ++ b) = expand P f a ++ expand P (flagAfter f a) b := by
  induction a generalizing f with
  | nil => simp [expand, flagAfter]
  | cons x xs ih => simp [expand, flagAfter, ih]

theorem flagAfter_append (a b : List Byte) (f : Bool) :
    flagAfter f (a ++ b) = flagAfter (flagAfter f a) b := by
  induction a generalizing f with
  | nil => simp [flagAfter]
  | cons x xs ih => simp [flagAfter, ih]

theorem prefixEachLine_eq_expand (P : List Byte) (prev : Option Byte) (s : List Byte) :
    prefixEachLine P prev s
      = expand P (if prev = none ∨ prev = some newline then true else false) s := by
  induction s generalizing prev with
  | nil => simp [prefixEachLine, expand]
  | cons x xs ih =>
    simp only [prefixEachLine, expand, ih]
    by_cases h : prev = none ∨ prev = some newline <;> simp [h]

theorem sent_append {ε : Type} (a b : List (Call ε)) : sent (a ++ b) = sent a ++ sent b := by
  simp [sent]

theorem sent_cons {ε : Type} (x : Call ε) (xs : List (Call ε)) :
    sent (x :: xs) = x.data ++ sent xs := by
  simp [sent]

theorem accepted_append {ε : Type} (a b : List (Call ε)) :
    accepted (a ++ b) = accepted a ++ accepted b := by
  simp [accepted]

theorem accepted_of_ok {ε : Type} (ok : List (Call ε)) (h : ∀ x ∈ ok, x.err = none) :
    accepted ok = sent ok := by
  induction ok with
  | nil => rfl
  | cons x xs ih =>
    have hx : x.err = none := h x (List.mem_cons_self _ _)
    have hxs : ∀ y ∈ xs, y.err = none := fun y hy => h y (List.mem_cons_of_mem _ hy)
    have e1 : accepted (x :: xs) = x.data ++ accepted xs := by
      simp [accepted, List.filter_cons, hx]
    have e2 : sent (x :: xs) = x.data ++ sent xs := by simp [sent]
    rw [e1, e2, ih hxs]

/-! ## The byte loop over a logged sink -/

theorem logged_write {σ ε : Type} (dst : Writer σ ε) (s : σ) (log : List (Call ε))
    (p : List Byte) :
    (logged dst).write (s, log) p
      = ((dst.write s p).1, ((dst.write s p).2,
          log ++ [⟨p, (dst.write s p).1.1, (dst.write s p).1.2⟩])) := rfl

theorem writeLoop_outcome {σ ε : Type} (dst : Writer σ ε) (pfx : List Byte) (p : List Byte) :
    ∀ (c : Nat) (f : Bool) (s : σ) (log0 : List (Call ε)),
      LoopOutcome pfx p c f log0 (writeLoop (logged dst) pfx p c f (s, log0)) := by
  induction p with
  | nil =>
    intro c f s log0
    refine ⟨[], [], [], rfl, rfl, by simp, Or.inl ⟨rfl, rfl, by simp [writeLoop], ?_, ?_⟩⟩
    · simp [sent, expand]
    · simp [writeLoop, flagAfter]
  | cons b rest ih =>
    intro c f s log0
    cases f with
    | true =>
      rcases hp : dst.write s pfx with ⟨⟨n1, e1⟩, s1⟩
      cases e1 with
      | some e =>
        refine ⟨[], b :: rest, [], rfl, ?_, by simp, Or.inr ⟨e, ⟨pfx, n1, some e⟩, ?_, rfl, ?_,
          Or.inl ⟨by simp, rfl, rfl, ?_, ?_⟩⟩⟩
        all_goals simp [writeLoop, logged_write, hp, sent, expand, flagAfter]
      | none =>
        rcases hb : dst.write s1 [b] with ⟨⟨n2, e2⟩, s2⟩
        cases e2 with
        | some e =>
          refine ⟨[], b :: rest, [⟨pfx, n1, none⟩], rfl, ?_, by simp,
            Or.inr ⟨e, ⟨[b], n2, some e⟩, ?_, rfl, ?_, Or.inr ⟨b, rest, rfl, rfl, ?_, ?_⟩⟩⟩
          all_goals simp [writeLoop, logged_write, hp, hb, sent, expand, flagAfter]
        | none =>
          obtain ⟨f1, hf1⟩ : ∃ f1 : Bool, f1 = (if b = newline then true else false) :=
            ⟨_, rfl⟩
          have hE : ∀ (f : Bool) (l : List Byte),
              expand pfx f (b :: l) = (if f then pfx else []) ++ b :: expand pfx f1 l := by
            intro f l; rw [hf1]; rfl
          have hF : ∀ (f : Bool) (l : List Byte), flagAfter f (b :: l) = flagAfter f1 l := by
            intro f l; rw [hf1]; rfl
          have hstep : writeLoop (logged dst) pfx (b :: rest) c true (s, log0)
              = writeLoop (logged dst) pfx rest (c + 1) f1
                  (s2, log0 ++ [⟨pfx, n1, none⟩, ⟨[b], n2, none⟩]) := by
            rw [hf1]; simp [writeLoop, logged_write, hp, hb]
          rw [hstep]
          obtain ⟨done, rest1, ok, hsplit, hcount, hok, hcase⟩ :=
            ih (c + 1) f1 s2 (log0 ++ [⟨pfx, n1, none⟩, ⟨[b], n2, none⟩])
          refine ⟨b :: done, rest1, ⟨pfx, n1, none⟩ :: ⟨[b], n2, none⟩ :: ok, by simp [hsplit],
            by rw [hcount, List.length_cons]; omega, ?_, ?_⟩
          · intro x hx
            simp only [List.mem_cons] at hx
            rcases hx with rfl | rfl | hx
            · rfl
            · rfl
            · exact hok x hx
          · rcases hcase with ⟨h1, h2, h3, h4, h5⟩ | ⟨e, bad, h1, h2, h3, hc⟩
            · exact Or.inl ⟨h1, h2, by simp [h3], by simp [sent_cons, h4, hE],
                by simp [h5, hF]⟩
            · refine Or.inr ⟨e, bad, h1, h2, by simp [h3], ?_⟩
              rcases hc with ⟨g1, g2, g3, g4, g5⟩ | ⟨b1, tl, g1, g2, g3, g4⟩
              · exact Or.inl ⟨g1, g2, by simp [hF, g3], g4,
                  by simp [sent_cons, g5, hE]⟩
              · exact Or.inr ⟨b1, tl, g1, g2, g3, by simp [sent_cons, g4, hE, hF]⟩
    | false =>
      rcases hb : dst.write s [b] with ⟨⟨n2, e2⟩, s2⟩
      cases e2 with
      | some e =>
        refine ⟨[], b :: rest, [], rfl, ?_, by simp,
          Or.inr ⟨e, ⟨[b], n2, some e⟩, ?_, rfl, ?_, Or.inr ⟨b, rest, rfl, rfl, ?_, ?_⟩⟩⟩
        all_goals simp [writeLoop, logged_write, hb, sent, expand, flagAfter]
      | none =>
        obtain ⟨f1, hf1⟩ : ∃ f1 : Bool, f1 = (if b = newline then true else false) :=
          ⟨_, rfl⟩
        have hE : ∀ (f : Bool) (l : List Byte),
            expand pfx f (b :: l) = (if f then pfx else []) ++ b :: expand pfx f1 l := by
          intro f l; rw [hf1]; rfl
        have hF : ∀ (f : Bool) (l : List Byte), flagAfter f (b :: l) = flagAfter f1 l := by
          intro f l; rw [hf1]; rfl
        have hstep : writeLoop (logged dst) pfx (b :: rest) c false (s, log0)
            = writeLoop (logged dst) pfx rest (c + 1) f1
                (s2, log0 ++ [⟨[b], n2, none⟩]) := by
          rw [hf1]; simp [writeLoop, logged_write, hb]
        rw [hstep]
        obtain ⟨done, rest1, ok, hsplit, hcount, hok, hcase⟩ :=
          ih (c + 1) f1 s2 (log0 ++ [⟨[b], n2, none⟩])
        refine ⟨b :: done, rest1, ⟨[b], n2, none⟩ :: ok, by simp [hsplit],
          by rw [hcount, List.length_cons]; omega, ?_, ?_⟩
        · intro x hx
          simp only [List.mem_cons] at hx
          rcases hx with rfl | hx
          · rfl
          · exact hok x hx
        · rcases hcase with ⟨h1, h2, h3, h4, h5⟩ | ⟨e, bad, h1, h2, h3, hc⟩
          · exact Or.inl ⟨h1, h2, by simp [h3], by simp [sent_cons, h4, hE],
              by simp [h5, hF]⟩
          · refine Or.inr ⟨e, bad, h1, h2, by simp [h3], ?_⟩
            rcases hc with ⟨g1, g2, g3, g4, g5⟩ | ⟨b1, tl, g1, g2, g3, g4⟩
            · exact Or.inl ⟨g1, g2, by simp [hF, g3], g4,
                by simp [sent_cons, g5, hE]⟩
            · exact Or.inr ⟨b1, tl, g1, g2, g3, by simp [sent_cons, g4, hE, hF]⟩

/-! ## Sinks that never fail -/

theorem neverFails_logged {σ ε : Type} (dst : Writer σ ε) (h : NeverFails dst) :
    NeverFails (logged dst) := by
  intro st p
  exact h st.1 p

theorem writeLoop_neverFails {σ ε : Type} (dst : Writer σ ε) (h : NeverFails dst)
    (pfx p : List Byte) :
    ∀ (c : Nat) (f : Bool) (s : σ), (writeLoop dst pfx p c f s).1.2 = none := by
  induction p with
  | nil => intro c f s; rfl
  | cons b rest ih =>
    intro c f s
    cases f with
    | true =>
      rcases hp : dst.write s pfx with ⟨⟨n1, e1⟩, s1⟩
      have h1 : e1 = none := by have := h s pfx; rw [hp] at this; exact this
      subst h1
      rcases hb : dst.write s1 [b] with ⟨⟨n2, e2⟩, s2⟩
      have h2 : e2 = none := by have := h s1 [b]; rw [hb] at this; exact this
      subst h2
      simp only [writeLoop, hp, hb, if_true]
      exact ih _ _ _
    | false =>
      rcases hb : dst.write s [b] with ⟨⟨n2, e2⟩, s2⟩
      have h2 : e2 = none := by have := h s [b]; rw [hb] at this; exact this
      subst h2
      simp only [writeLoop, hb]
      exact ih _ _ _

theorem write_eq_loop {σ ε : Type} (dst : Writer σ ε) (w : LinePrefixWriter)
    (hw : w.pfx ≠ []) (s : σ) (p : List Byte) :
    LinePrefixWriter.Write dst w s p
      = ((writeLoop dst w.pfx p 0 w.atLineStart s).1,
          { w with atLineStart := (writeLoop dst w.pfx p 0 w.atLineStart s).2.1 },
          (writeLoop dst w.pfx p 0 w.atLineStart s).2.2) := by
  have hlen : ¬ w.pfx.length = 0 := by
    intro h0
    exact hw (List.length_eq_zero.mp h0)
  simp [LinePrefixWriter.Write, hlen]

theorem write_logged_ok {σ ε : Type} (dst : Writer σ ε) (h : NeverFails dst)
    (w : LinePrefixWriter) (hw : w.pfx ≠ []) (s : σ) (log0 : List (Call ε)) (p : List Byte) :
    (LinePrefixWriter.Write (logged dst) w (s, log0) p).1 = (p.length, none) ∧
    (LinePrefixWriter.Write (logged dst) w (s, log0) p).2.1
      = { w with atLineStart := flagAfter w.atLineStart p } ∧
    sent (LinePrefixWriter.Write (logged dst) w (s, log0) p).2.2.2
      = sent log0 ++ expand w.pfx w.atLineStart p := by
  rw [write_eq_loop (logged dst) w hw]
  have hnone := writeLoop_neverFails (logged dst) (neverFails_logged dst h) w.pfx p 0
    w.atLineStart (s, log0)
  obtain ⟨done, rest, ok, hsplit, hcount, _, hcase⟩ :=
    writeLoop_outcome dst w.pfx p 0 w.atLineStart s log0
  rcases hcase with ⟨h1, h2, h3, h4, h5⟩ | ⟨e, bad, h1, _⟩
  · subst h1
    simp only [List.append_nil] at hsplit
    subst hsplit
    refine ⟨?_, ?_, ?_⟩
    · apply Prod.ext
      · simpa using hcount
      · exact h2
    · simp [h5]
    · simp [h3, sent_append, h4]
  · rw [hnone] at h1
    exact absurd h1 (by simp)

theorem writeChunks_logged_ok {σ ε : Type} (dst : Writer σ ε) (h : NeverFails dst)
    (chunks : List (List Byte)) :
    ∀ (w : LinePrefixWriter), w.pfx ≠ [] → ∀ (s : σ) (log0 : List (Call ε)),
      (writeChunks (logged dst) w (s, log0) chunks).1
        = { w with atLineStart := flagAfter w.atLineStart chunks.flatten } ∧
      sent (writeChunks (logged dst) w (s, log0) chunks).2.2
        = sent log0 ++ expand w.pfx w.atLineStart chunks.flatten := by
  induction chunks with
  | nil =>
    intro w _ s log0
    simp [writeChunks, flagAfter, expand]
  | cons c cs ih =>
    intro w hw s log0
    obtain ⟨_, h2, h3⟩ := write_logged_ok dst h w hw s log0 c
    simp only [writeChunks]
    rcases hr : LinePrefixWriter.Write (logged dst) w (s, log0) c with ⟨res, w1, s1, log1⟩
    rw [hr] at h2 h3
    simp only at h2 h3
    subst h2
    obtain ⟨g1, g2⟩ := ih { w with atLineStart := flagAfter w.atLineStart c } hw s1 log1
    refine ⟨?_, ?_⟩
    · rw [g1]
      simp [flagAfter_append]
    · rw [g2, h3]
      simp [expand_append]

theorem writeLoop_bufSink (ε : Type) (pfx p : List Byte) :
    ∀ (c : Nat) (f : Bool) (buf : List Byte),
      writeLoop (bufSink ε) pfx p c f buf
        = ((c + p.length, none), flagAfter f p, buf ++ expand pfx f p) := by
  induction p with
  | nil => intro c f buf; simp [writeLoop, flagAfter, expand]
  | cons b rest ih =>
    intro c f buf
    cases f with
    | true =>
      have hstep : writeLoop (bufSink ε) pfx (b :: rest) c true buf
          = writeLoop (bufSink ε) pfx rest (c + 1) (if b = newline then true else false)
              ((buf ++ pfx) ++ [b]) := rfl
      rw [hstep, ih]
      simp [flagAfter, expand]
      omega
    | false =>
      have hstep : writeLoop (bufSink ε) pfx (b :: rest) c false buf
          = writeLoop (bufSink ε) pfx rest (c + 1) (if b = newline then true else false)
              (buf ++ [b]) := rfl
      rw [hstep, ih]
      simp [flagAfter, expand]
      omega

/-! ## The claims on `LinePrefixWriter.Write` -/

/-- C1, chunking invariance: for a non-empty prefix `P` and a sink that never
fails, writing the chunks of any splitting of `s` one after the other to a fresh
writer hands the sink the same bytes as writing `s` in one call to a fresh writer,
and ends with the same `atLineStart`. -/
theorem write_chunking_invariant {σ ε : Type} (dst : Writer σ ε) (hdst : NeverFails dst)
    (P : List Byte) (hP : P ≠ []) (s : List Byte) (chunks : List (List Byte))
    (hs : chunks.flatten = s) (s0 : σ) :
    sent (writeChunks (logged dst) (NewLinePrefixWriter P) (s0, []) chunks).2.2
      = sent (LinePrefixWriter.Write (logged dst) (NewLinePrefixWriter P) (s0, []) s).2.2.2 ∧
    (writeChunks (logged dst) (NewLinePrefixWriter P) (s0, []) chunks).1.atLineStart
      = (LinePrefixWriter.Write (logged dst) (NewLinePrefixWriter P) (s0, []) s).2.1.atLineStart := by
  obtain ⟨a1, a2⟩ := writeChunks_logged_ok dst hdst chunks (NewLinePrefixWriter P) hP s0 []
  obtain ⟨_, b1, b2⟩ := write_logged_ok dst hdst (NewLinePrefixWriter P) hP s0 [] s
  rw [a1, a2, b1, b2, hs]
  exact ⟨rfl, rfl⟩

/-- Chunking invariance on an in-memory buffer, the
prefix `"> "`, the input `"a\nb\nc"` split as `"a"`, `""`, `"\nb\n"`, `"c"`. -/
theorem write_chunking_invariant_witness :
    NeverFails (bufSink Unit) ∧ lit "> " ≠ [] ∧
    [lit "a", [], lit "\nb\n", lit "c"].flatten = lit "a\nb\nc" ∧
    sent (writeChunks (logged (bufSink Unit)) (NewLinePrefixWriter (lit "> ")) ([], [])
        [lit "a", [], lit "\nb\n", lit "c"]).2.2
      = sent (LinePrefixWriter.Write (logged (bufSink Unit)) (NewLinePrefixWriter (lit "> "))
          ([], []) (lit "a\nb\nc")).2.2.2 ∧
    (writeChunks (logged (bufSink Unit)) (NewLinePrefixWriter (lit "> ")) ([], [])
        [lit "a", [], lit "\nb\n", lit "c"]).1.atLineStart
      = (LinePrefixWriter.Write (logged (bufSink Unit)) (NewLinePrefixWriter (lit "> "))
          ([], []) (lit "a\nb\nc")).2.1.atLineStart :=
  ⟨fun _ _ => rfl, by decide, by decide,
    write_chunking_invariant (bufSink Unit) (fun _ _ => rfl) (lit "> ") (by decide)
      (lit "a\nb\nc") [lit "a", [], lit "\nb\n", lit "c"] (by decide) []⟩

/-- C2, reference output: for a non-empty prefix `P` and a sink that never fails,
the bytes the sink receives when `s` is written to a fresh writer are `s` with one
copy of `P` before its first byte and before every byte that follows a line feed,
and nowhere else.  With prefix `"> "` the input `"a\nb\nc"` gives `"> a\n> b\n> c"`,
and with prefix `"[p] "` the input `"x\ny\n"` gives `"[p] x\n[p] y\n"`. -/
theorem write_reference_output {σ ε : Type} (dst : Writer σ ε) (hdst : NeverFails dst)
    (P : List Byte) (hP : P ≠ []) (s : List Byte) (s0 : σ) :
    sent (LinePrefixWriter.Write (logged dst) (NewLinePrefixWriter P) (s0, []) s).2.2.2
      = prefixEachLine P none s ∧
    sent (LinePrefixWriter.Write (logged (bufSink Unit)) (NewLinePrefixWriter (lit "> "))
        ([], []) (lit "a\nb\nc")).2.2.2 = lit "> a\n> b\n> c" ∧
    sent (LinePrefixWriter.Write (logged (bufSink Unit)) (NewLinePrefixWriter (lit "[p] "))
        ([], []) (lit "x\ny\n")).2.2.2 = lit "[p] x\n[p] y\n" := by
  refine ⟨?_, by decide, by decide⟩
  obtain ⟨_, _, b2⟩ := write_logged_ok dst hdst (NewLinePrefixWriter P) hP s0 [] s
  rw [b2, prefixEachLine_eq_expand]
  simp [sent, NewLinePrefixWriter]

/-- The reference output checked on an in-memory buffer, prefix `"# "`, input
`"one\n\ntwo"`. -/
theorem write_reference_output_witness :
    NeverFails (bufSink Unit) ∧ lit "# " ≠ [] ∧
    (sent (LinePrefixWriter.Write (logged (bufSink Unit)) (NewLinePrefixWriter (lit "# "))
        ([], []) (lit "one\n\ntwo")).2.2.2
      = prefixEachLine (lit "# ") none (lit "one\n\ntwo") ∧
    sent (LinePrefixWriter.Write (logged (bufSink Unit)) (NewLinePrefixWriter (lit "> "))
        ([], []) (lit "a\nb\nc")).2.2.2 = lit "> a\n> b\n> c" ∧
    sent (LinePrefixWriter.Write (logged (bufSink Unit)) (NewLinePrefixWriter (lit "[p] "))
        ([], []) (lit "x\ny\n")).2.2.2 = lit "[p] x\n[p] y\n") :=
  ⟨fun _ _ => rfl, by decide,
    write_reference_output (bufSink Unit) (fun _ _ => rfl) (lit "# ") (by decide)
      (lit "one\n\ntwo") []⟩

/-- C3, passthrough: a writer constructed with the empty prefix forwards every
chunk to the sink unchanged in one sink write of its own, whatever the chunking, so
the sink receives exactly the input bytes in order; this holds for every sink, in
particular for one that accepts every write. -/
theorem write_passthrough {σ ε : Type} (dst : Writer σ ε) (chunks : List (List Byte))
    (s0 : σ) :
    (writeChunks (logged dst) (NewLinePrefixWriter []) (s0, []) chunks).2.2.map Call.data
      = chunks ∧
    sent (writeChunks (logged dst) (NewLinePrefixWriter []) (s0, []) chunks).2.2
      = chunks.flatten := by
  have key : ∀ (cs : List (List Byte)) (s : σ) (log0 : List (Call ε)),
      (writeChunks (logged dst) (NewLinePrefixWriter []) (s, log0) cs).2.2.map Call.data
        = log0.map Call.data ++ cs := by
    intro cs
    induction cs with
    | nil => intro s log0; simp [writeChunks]
    | cons c cs ih =>
      intro s log0
      have hstep : writeChunks (logged dst) (NewLinePrefixWriter []) (s, log0) (c :: cs)
          = writeChunks (logged dst) (NewLinePrefixWriter [])
              ((dst.write s c).2, log0 ++ [⟨c, (dst.write s c).1.1, (dst.write s c).1.2⟩])
              cs := rfl
      rw [hstep, ih]
      simp
  have h := key chunks s0 []
  refine ⟨by simpa using h, ?_⟩
  unfold sent
  rw [h]
  simp

/-- C7, empty input: in every writer state, with an empty or a non-empty prefix and
either value of `atLineStart`, `Write` of an empty chunk hands no byte to the sink
and leaves the writer, `atLineStart` included, as it was. -/
theorem write_empty_chunk {σ ε : Type} (dst : Writer σ ε) (w : LinePrefixWriter) (s0 : σ) :
    sent (LinePrefixWriter.Write (logged dst) w (s0, []) []).2.2.2 = [] ∧
    (LinePrefixWriter.Write (logged dst) w (s0, []) []).2.1 = w := by
  by_cases h : w.pfx.length = 0
  · simp [LinePrefixWriter.Write, h, logged, sent]
  · simp [LinePrefixWriter.Write, h, writeLoop, sent]

/-- C6, result of `Write` with a non-empty prefix, from any writer state and for
any chunk `p` and any sink.  `ok` are the sink writes that succeeded, `done` the
bytes of `p` they carried.  Either no sink write failed and `Write` returns
`(len(p), nil)`; or exactly one sink write `bad` failed, it is the last one made,
`Write` returns its error with the count `len(done) < len(p)`, and `bad` was the
write of the prefix or of the byte of `p` right after `done`. -/
theorem write_result {σ ε : Type} (dst : Writer σ ε) (w : LinePrefixWriter)
    (hw : w.pfx ≠ []) (s0 : σ) (p : List Byte) :
    ∃ done rest ok, p = done ++ rest ∧ (∀ x ∈ ok, x.err = none) ∧
      ((rest = [] ∧
          (LinePrefixWriter.Write (logged dst) w (s0, []) p).1 = (p.length, none) ∧
          (LinePrefixWriter.Write (logged dst) w (s0, []) p).2.2.2 = ok ∧
          sent ok = expand w.pfx w.atLineStart p) ∨
       (∃ e bad, bad.err = some e ∧
          (LinePrefixWriter.Write (logged dst) w (s0, []) p).2.2.2 = ok ++ [bad] ∧
          (LinePrefixWriter.Write (logged dst) w (s0, []) p).1 = (done.length, some e) ∧
          done.length < p.length ∧
          ((bad.data = w.pfx ∧ sent ok = expand w.pfx w.atLineStart done) ∨
           (∃ b tl, rest = b :: tl ∧ bad.data = [b] ∧
              sent ok = expand w.pfx w.atLineStart done
                ++ (if flagAfter w.atLineStart done then w.pfx else []))))) := by
  rw [write_eq_loop (logged dst) w hw]
  obtain ⟨done, rest, ok, hsplit, hcount, hok, hcase⟩ :=
    writeLoop_outcome dst w.pfx p 0 w.atLineStart s0 []
  refine ⟨done, rest, ok, hsplit, hok, ?_⟩
  rcases hcase with ⟨h1, h2, h3, h4, _⟩ | ⟨e, bad, h1, h2, h3, hc⟩
  · refine Or.inl ⟨h1, ?_, by simpa using h3, h4⟩
    apply Prod.ext
    · show (writeLoop (logged dst) w.pfx p 0 w.atLineStart (s0, [])).1.1 = p.length
      rw [hcount]
      simp [hsplit, h1]
    · exact h2
  · have hlt : rest ≠ [] → done.length < p.length := by
      intro hne
      have : 0 < rest.length := List.length_pos.mpr hne
      rw [hsplit, List.length_append]
      omega
    refine Or.inr ⟨e, bad, h2, by simpa using h3, ?_, ?_, ?_⟩
    · apply Prod.ext
      · simp [hcount]
      · exact h1
    · rcases hc with ⟨g1, _⟩ | ⟨b, tl, g1, _⟩
      · exact hlt g1
      · exact hlt (by simp [g1])
    · rcases hc with ⟨_, g2, _, _, g5⟩ | ⟨b, tl, g1, g2, _, g4⟩
      · exact Or.inl ⟨g2, g5⟩
      · exact Or.inr ⟨b, tl, g1, g2, g4⟩

/-- The result of `Write` on a sink whose second call fails, prefix `"> "`, chunk
`"ab"` from a fresh writer: the prefix goes out, the write of `a` fails. -/
theorem write_result_witness :
    (NewLinePrefixWriter (lit "> ")).pfx ≠ [] ∧
    ∃ done rest ok, lit "ab" = done ++ rest ∧ (∀ x ∈ ok, x.err = none) ∧
      ((rest = [] ∧
          (LinePrefixWriter.Write (logged (failOnCall 1)) (NewLinePrefixWriter (lit "> "))
            (0, []) (lit "ab")).1 = ((lit "ab").length, none) ∧
          (LinePrefixWriter.Write (logged (failOnCall 1)) (NewLinePrefixWriter (lit "> "))
            (0, []) (lit "ab")).2.2.2 = ok ∧
          sent ok = expand (NewLinePrefixWriter (lit "> ")).pfx
            (NewLinePrefixWriter (lit "> ")).atLineStart (lit "ab")) ∨
       (∃ e bad, bad.err = some e ∧
          (LinePrefixWriter.Write (logged (failOnCall 1)) (NewLinePrefixWriter (lit "> "))
            (0, []) (lit "ab")).2.2.2 = ok ++ [bad] ∧
          (LinePrefixWriter.Write (logged (failOnCall 1)) (NewLinePrefixWriter (lit "> "))
            (0, []) (lit "ab")).1 = (done.length, some e) ∧
          done.length < (lit "ab").length ∧
          ((bad.data = (NewLinePrefixWriter (lit "> ")).pfx ∧
              sent ok = expand (NewLinePrefixWriter (lit "> ")).pfx
                (NewLinePrefixWriter (lit "> ")).atLineStart done) ∨
           (∃ b tl, rest = b :: tl ∧ bad.data = [b] ∧
              sent ok = expand (NewLinePrefixWriter (lit "> ")).pfx
                  (NewLinePrefixWriter (lit "> ")).atLineStart done
                ++ (if flagAfter (NewLinePrefixWriter (lit "> ")).atLineStart done
                    then (NewLinePrefixWriter (lit "> ")).pfx else []))))) :=
  ⟨by decide,
    write_result (failOnCall 1) (NewLinePrefixWriter (lit "> ")) (by decide) 0 (lit "ab")⟩

/-- C10, resuming after a failed write: with a non-empty prefix, from any writer
state and for any chunk `p`, over a sink whose failing write delivers nothing, if
`Write(p)` fails with count `k` and the following `Write(p[k:])` on the same writer
meets no failure, then the sink holds, and the writer is in, exactly what one
failure-free `Write(p)` from the original state leaves (here on an in-memory buffer):
nothing is lost or duplicated, the prefix of the interrupted line included. -/
theorem write_resume {σ ε : Type} (dst : Writer σ ε) (w : LinePrefixWriter)
    (hw : w.pfx ≠ []) (s0 : σ) (p : List Byte) (k : Nat) (e : ε)
    (hfail : (LinePrefixWriter.Write (logged dst) w (s0, []) p).1 = (k, some e))
    (hresume : (LinePrefixWriter.Write (logged dst)
        (LinePrefixWriter.Write (logged dst) w (s0, []) p).2.1
        (LinePrefixWriter.Write (logged dst) w (s0, []) p).2.2 (p.drop k)).1.2 = none) :
    accepted (LinePrefixWriter.Write (logged dst)
        (LinePrefixWriter.Write (logged dst) w (s0, []) p).2.1
        (LinePrefixWriter.Write (logged dst) w (s0, []) p).2.2 (p.drop k)).2.2.2
      = (LinePrefixWriter.Write (bufSink ε) w [] p).2.2 ∧
    (LinePrefixWriter.Write (logged dst)
        (LinePrefixWriter.Write (logged dst) w (s0, []) p).2.1
        (LinePrefixWriter.Write (logged dst) w (s0, []) p).2.2 (p.drop k)).2.1
      = (LinePrefixWriter.Write (bufSink ε) w [] p).2.1 := by
  rw [write_eq_loop (bufSink ε) w hw, writeLoop_bufSink]
  rw [write_eq_loop (logged dst) w hw] at hfail hresume ⊢
  obtain ⟨done, rest, ok, hsplit, hcount, hok, hcase⟩ :=
    writeLoop_outcome dst w.pfx p 0 w.atLineStart s0 []
  rcases hr : writeLoop (logged dst) w.pfx p 0 w.atLineStart (s0, []) with ⟨res, f1, s1, log1⟩
  rw [hr] at hfail hresume hcount hcase
  simp only at hfail hresume hcount hcase ⊢
  subst hfail
  simp only [Nat.zero_add] at hcount
  have hdrop : p.drop k = rest := by
    rw [hsplit, hcount]
    simp
  rw [hdrop] at hresume ⊢
  rcases hcase with ⟨_, h2, _⟩ | ⟨e1, bad, _, hbad, hlog, hc⟩
  · exact absurd h2 (by simp)
  · have hw1 : ({ w with atLineStart := f1 } : LinePrefixWriter).pfx ≠ [] := hw
    rw [write_eq_loop (logged dst) _ hw1] at hresume ⊢
    obtain ⟨done2, rest2, ok2, hsplit2, _, hok2, hcase2⟩ :=
      writeLoop_outcome dst w.pfx rest 0 f1 s1 log1
    simp only at hresume ⊢
    rcases hcase2 with ⟨_, _, k3, k4, k5⟩ | ⟨e2, _, k1, _⟩
    · have hacc : accepted (log1 ++ ok2) = sent ok ++ sent ok2 := by
        have hb : accepted [bad] = [] := by simp [accepted, hbad]
        rw [hlog, accepted_append, accepted_append, accepted_append, hb,
          accepted_of_ok ok hok, accepted_of_ok ok2 hok2]
        simp [accepted]
      rw [k3, k5, hacc, k4]
      rcases hc with ⟨_, _, g3, g4, g5⟩ | ⟨b, tl, g1, _, g3, g4⟩
      · subst g4
        rw [g5, hsplit, expand_append, flagAfter_append, g3]
        simp
      · subst g3
        rw [g4, hsplit, expand_append, flagAfter_append, g1]
        simp [expand, flagAfter]
    · rw [k1] at hresume
      exact absurd hresume (by simp)

/-- Resuming on a sink whose second call fails, prefix `"> "`, chunk `"a\nb"` from a
fresh writer: the prefix is out when the write of `a` fails with count 0; the
re-sent chunk then completes the output `"> a\n> b"` with no second prefix. -/
theorem write_resume_witness :
    (NewLinePrefixWriter (lit "> ")).pfx ≠ [] ∧
    (LinePrefixWriter.Write (logged (failOnCall 1)) (NewLinePrefixWriter (lit "> ")) (0, [])
        (lit "a\nb")).1 = (0, some "write failed") ∧
    accepted (LinePrefixWriter.Write (logged (failOnCall 1))
        (LinePrefixWriter.Write (logged (failOnCall 1)) (NewLinePrefixWriter (lit "> "))
          (0, []) (lit "a\nb")).2.1
        (LinePrefixWriter.Write (logged (failOnCall 1)) (NewLinePrefixWriter (lit "> "))
          (0, []) (lit "a\nb")).2.2 ((lit "a\nb").drop 0)).2.2.2
      = (LinePrefixWriter.Write (bufSink String) (NewLinePrefixWriter (lit "> ")) []
          (lit "a\nb")).2.2 ∧
    (LinePrefixWriter.Write (logged (failOnCall 1))
        (LinePrefixWriter.Write (logged (failOnCall 1)) (NewLinePrefixWriter (lit "> "))
          (0, []) (lit "a\nb")).2.1
        (LinePrefixWriter.Write (logged (failOnCall 1)) (NewLinePrefixWriter (lit "> "))
          (0, []) (lit "a\nb")).2.2 ((lit "a\nb").drop 0)).2.1
      = (LinePrefixWriter.Write (bufSink String) (NewLinePrefixWriter (lit "> ")) []
          (lit "a\nb")).2.1 :=
  ⟨by decide, by decide,
    write_resume (failOnCall 1) (NewLinePrefixWriter (lit "> ")) (by decide) 0 (lit "a\nb") 0
      "write failed" (by decide) (by decide)⟩

/-! ## The claims on the exit code and on `main` -/

/-- C4, exit-code fidelity: for `0 ≤ N ≤ 255`, on the wait result of a child that
exits normally with status `N` (`nil` for 0, an `ExitError` with status `N`
otherwise) `exitCodeFromError` returns `N`, a `nil` wait error gives 0, and when
the command is given and the child starts, `main` ends with `os.Exit(N)`. -/
theorem exit_code_fidelity (N : Nat) (hN : N ≤ 255) (command appendPrefix : GoString)
    (hcommand : command ≠ []) (goos : String) :
    exitCodeFromError (waitResult N) = (N : Int) ∧
    exitCodeFromError none = 0 ∧
    (main command appendPrefix
        { goos := goos, stdoutPipeErr := none, stderrPipeErr := none, startErr := none,
          waitErr := waitResult N }).getLast? = some (.exit (N : Int)) := by
  have h1 : exitCodeFromError (waitResult N) = (N : Int) := by
    by_cases h0 : N = 0
    · subst h0
      rfl
    · have hmod : N % 256 = N := Nat.mod_eq_of_lt (by omega)
      simp [waitResult, h0, exitCodeFromError, asExitError, ProcessState.ExitCode, hmod]
  refine ⟨h1, rfl, ?_⟩
  simp [main, hcommand, h1]

/-- Exit-code fidelity at status 3 for the command `"exit 3"` with prefix `"> "`. -/
theorem exit_code_fidelity_witness :
    3 ≤ 255 ∧ lit "exit 3" ≠ [] ∧
    (exitCodeFromError (waitResult 3) = ((3 : Nat) : Int) ∧
    exitCodeFromError none = 0 ∧
    (main (lit "exit 3") (lit "> ")
        { goos := "linux", stdoutPipeErr := none, stderrPipeErr := none, startErr := none,
          waitErr := waitResult 3 }).getLast? = some (.exit ((3 : Nat) : Int))) :=
  ⟨by decide, by decide,
    exit_code_fidelity 3 (by decide) (lit "exit 3") (lit "> ") (by decide) "linux"⟩

/-- C5 as stated fails: a child killed by signal 9 is neither a success nor a normal
exit with a non-zero status, yet `exitCodeFromError` returns -1 on its wait error,
not 1. -/
theorem generic_failure_counterexample :
    genericFailure (some (.exitError (.signaled 9))) = true ∧
    exitCodeFromError (some (.exitError (.signaled 9))) = -1 ∧
    ¬ (genericFailure (some (.exitError (.signaled 9))) = true →
        exitCodeFromError (some (.exitError (.signaled 9))) = 1) := by
  decide

/-- C5 amended, generic-failure code: on every wait error that is not, and does not
wrap, an `*exec.ExitError` (waiting failed for a reason other than the child's exit
status) `exitCodeFromError` returns 1; on the `ExitError` of a child killed by a
signal it returns that error's `ExitCode()`, which is -1. -/
theorem generic_failure_code (err : GoError) (h : asExitError err = none) :
    exitCodeFromError (some err) = 1 ∧
    ∀ sig : Nat, exitCodeFromError (some (.exitError (.signaled sig))) = -1 := by
  refine ⟨?_, fun _ => rfl⟩
  simp [exitCodeFromError, h]

/-- The generic-failure code on the wrapped error of a `Wait` on a command that
was never started. -/
theorem generic_failure_code_witness :
    asExitError (.wrap "wait" (.other "exec: not started")) = none ∧
    (exitCodeFromError (some (.wrap "wait" (.other "exec: not started"))) = 1 ∧
    ∀ sig : Nat, exitCodeFromError (some (.exitError (.signaled sig))) = -1) :=
  ⟨rfl, generic_failure_code (.wrap "wait" (.other "exec: not started")) rfl⟩

/-- C9, missing mandatory command: with an empty `--command` value `main`, for every
prefix value and environment, prints the error and the usage and calls `os.Exit(2)`
with no command built and no process started; with a non-empty command `b :: rest`
its first effect is building the command, and neither the error line nor the usage
of the exit-2 branch occurs. -/
theorem missing_command_exit (appendPrefix : GoString) (env : Env) (b : Byte)
    (rest : List Byte) :
    main [] appendPrefix env
      = [.errorLine "Error: --command is required", .errorLine "", .usage, .exit 2] ∧
    (main (b :: rest) appendPrefix env).head?
      = some (.buildCommand (shellCommand env.goos (b :: rest))) ∧
    Event.usage ∉ main (b :: rest) appendPrefix env ∧
    Event.errorLine "Error: --command is required" ∉ main (b :: rest) appendPrefix env := by
  refine ⟨rfl, ?_, ?_, ?_⟩
  all_goals
    rcases h1 : env.stdoutPipeErr with _ | e1 <;>
    rcases h2 : env.stderrPipeErr with _ | e2 <;>
    rcases h3 : env.startErr with _ | e3 <;>
    simp [main, h1, h2, h3]

/-! ## The claim on draining before exit -/

theorem step_orderInv (s s1 : Sup) (a : Action) (h : step s a = some s1)
    (hinv : OrderInv s) : OrderInv s1 := by
  obtain ⟨h1, h2⟩ := hinv
  cases a with
  | childWrite st b =>
    simp only [step] at h
    split at h
    · rename_i hc
      cases st <;> simp only [Option.some.injEq] at h <;> subst h <;>
        simp [OrderInv, Sup.setRelay, Sup.relay] at * <;> simp_all
    · exact absurd h (by simp)
  | childExit status =>
    simp only [step] at h
    split at h
    · simp only [Option.some.injEq] at h
      subst h
      exact ⟨fun _ => by simp, h2⟩
    · exact absurd h (by simp)
  | relayCopy st =>
    simp only [step] at h
    split at h
    · simp only [Option.some.injEq] at h
      subst h
      rename_i hc
      cases st <;> refine ⟨h1, fun hp => ?_⟩ <;> have := h2 hp <;>
        simp_all [Sup.setRelay, Sup.relay]
    · exact absurd h (by simp)
  | relayEOF st =>
    simp only [step] at h
    split at h
    · simp only [Option.some.injEq] at h
      subst h
      cases st <;> refine ⟨h1, fun hp => ?_⟩ <;> have := h2 hp <;>
        simp_all [Sup.setRelay, Sup.relay]
    · exact absurd h (by simp)
  | relayErr st =>
    simp only [step] at h
    split at h
    · simp only [Option.some.injEq] at h
      subst h
      cases st <;> refine ⟨h1, fun hp => ?_⟩ <;> have := h2 hp <;>
        simp_all [Sup.setRelay, Sup.relay]
    · exact absurd h (by simp)
  | wait =>
    simp only [step] at h
    split at h
    · rename_i ps hps
      split at h
      · simp only [Option.some.injEq] at h
        subst h
        exact ⟨fun _ => by simp [hps], fun hp => absurd rfl hp.2⟩
      · exact absurd h (by simp)
    · exact absurd h (by simp)
  | wgWait =>
    simp only [step] at h
    split at h
    · rename_i hc
      simp only [Option.some.injEq] at h
      subst h
      refine ⟨fun _ => h1 (by rw [hc.1]; simp), fun _ => ⟨hc.2.1, hc.2.2⟩⟩
    · exact absurd h (by simp)
  | exit =>
    simp only [step] at h
    split at h
    · rename_i hc
      simp only [Option.some.injEq] at h
      subst h
      refine ⟨fun _ => h1 (by rw [hc]; simp), fun _ => h2 (by rw [hc]; simp)⟩
    · exact absurd h (by simp)

theorem run_orderInv (sched : List Action) :
    ∀ (s s1 : Sup), run s sched = some s1 → OrderInv s → OrderInv s1 := by
  induction sched with
  | nil =>
    intro s s1 h hinv
    simp only [run, Option.some.injEq] at h
    subst h
    exact hinv
  | cons a rest ih =>
    intro s s1 h hinv
    simp only [run] at h
    split at h
    · rename_i s2 hs2
      exact ih s2 s1 h (step_orderInv s s2 a hs2 hinv)
    · exact absurd h (by simp)

/-- In every run from the start state, whatever the schedule, `os.Exit` is reached
only with the child ended and both relays finished. -/
theorem exit_after_child_and_relays (appendPrefix : GoString) (sched : List Action)
    (s : Sup) (code : Int) (hrun : run (Sup.started appendPrefix) sched = some s)
    (hexit : s.pc = .exited code) :
    s.childStatus ≠ none ∧ s.out.finished = true ∧ s.err.finished = true := by
  have h0 : OrderInv (Sup.started appendPrefix) := by
    constructor
    · intro h
      exact absurd rfl h
    · intro h
      exact absurd rfl h.1
  obtain ⟨h1, h2⟩ := run_orderInv sched _ s hrun h0
  have hp1 : s.pc ≠ .atWait := by rw [hexit]; simp
  have hp2 : s.pc ≠ .atWgWait := by rw [hexit]; simp
  exact ⟨h1 hp1, h2 ⟨hp1, hp2⟩⟩

/-- C8, drain before exit, fails on the code.  `main` does reach `os.Exit` through
`cmd.Wait()` and then `wg.Wait()`, in that order.  But in the run where the child
writes the byte `x` to its stdout and exits with status 0, `cmd.Wait()` returns and
closes the pipes before the stdout relay has read, the relay's read fails and its
error is dropped, `wg.Wait()` returns and `main` exits with code 0: the child wrote
`x`, the supervisor's stdout received nothing. -/
theorem drain_before_exit_fails (appendPrefix : GoString) (goos : String)
    (waitErr : Option GoError) (b : Byte) (rest : List Byte) :
    (main (b :: rest) appendPrefix
        { goos := goos, stdoutPipeErr := none, stderrPipeErr := none, startErr := none,
          waitErr := waitErr }).drop 6
      = [.wait, .wgWait, .exit (exitCodeFromError waitErr)] ∧
    run (Sup.started [])
        [.childWrite .stdout 120, .childExit (.exited 0), .wait, .relayErr .stdout,
          .relayErr .stderr, .wgWait, .exit]
      = some { childStatus := some (.exited 0), childOut := [120], childErr := [],
               pipesClosed := true,
               out := { pipe := [120], writer := none, dest := [], finished := true },
               err := { pipe := [], writer := none, dest := [], finished := true },
               waitErr := none, pc := .exited 0 } := by
  refine ⟨?_, by decide⟩
  simp [main]

end ExecCallback
